import Mathlib

/-!
# cloud-detect — verification of the detection orchestrator

A shallow embedding of the `spiraldb/cloud-detect` crate: the provider
identifier enumeration, the probe roster, the probe contract of the
provider modules, and the concurrency engine of `detect()` in
`src/lib.rs`, rendered as a labelled small-step transition system over an
explicit race state.  Machine-checked statements about the embedding
settle the behavioural claims of the crate's specification.
-/

namespace CloudDetect

/-- `ProviderId` (src/lib.rs lines 70–104): the identifier of a cloud
service provider, `Unknown` being the `#[default]` variant. -/
inductive ProviderId where
  | Unknown
  | Akamai
  | Alibaba
  | AWS
  | Azure
  | DigitalOcean
  | GCP
  | OCI
  | OpenStack
  | Vultr
deriving DecidableEq, Repr

/-- The `#[default]` variant of `ProviderId` (src/lib.rs lines 74–76):
what `Default::default()` and hence `unwrap_or_default()` produce. -/
def ProviderId.defaultValue : ProviderId := ProviderId.Unknown

/-- The `strum::Display` form of each variant, from the
`#[strum(serialize = "…")]` attributes (src/lib.rs lines 72–104):
the canonical lowercase display string. -/
def ProviderId.display : ProviderId → String
  | ProviderId.Unknown => "unknown"
  | ProviderId.Akamai => "akamai"
  | ProviderId.Alibaba => "alibaba"
  | ProviderId.AWS => "aws"
  | ProviderId.Azure => "azure"
  | ProviderId.DigitalOcean => "digitalocean"
  | ProviderId.GCP => "gcp"
  | ProviderId.OCI => "oci"
  | ProviderId.OpenStack => "openstack"
  | ProviderId.Vultr => "vultr"

/-- `alibaba::IDENTIFIER` (src/providers/alibaba.rs line 14). -/
def alibaba_IDENTIFIER : ProviderId := ProviderId.Alibaba

/-- `azure::IDENTIFIER` (src/providers/azure.rs line 15). -/
def azure_IDENTIFIER : ProviderId := ProviderId.Azure

/-- `digitalocean::IDENTIFIER` (src/providers/digitalocean.rs line 15). -/
def digitalocean_IDENTIFIER : ProviderId := ProviderId.DigitalOcean

/-- `gcp::IDENTIFIER` (src/providers/gcp.rs line 14). -/
def gcp_IDENTIFIER : ProviderId := ProviderId.GCP

/-- `oci::IDENTIFIER` (src/providers/oci.rs line 15). -/
def oci_IDENTIFIER : ProviderId := ProviderId.OCI

/-- Modelled from the spec: the `akamai` provider module is not among the
given source files (src/lib.rs line 119 instantiates `akamai::Akamai` and
line 240 tests `akamai::IDENTIFIER`); per the spec's roster and display
list its identifier is `Akamai` ("akamai"). -/
def akamai_IDENTIFIER : ProviderId := ProviderId.Akamai

/-- Modelled from the spec: the `aws` provider module is not among the
given source files (src/lib.rs line 127 instantiates `aws::Aws`); per the
spec's roster and display list its identifier is `AWS` ("aws"). -/
def aws_IDENTIFIER : ProviderId := ProviderId.AWS

/-- Modelled from the spec: the `openstack` provider module is not among
the given source files (src/lib.rs line 147 instantiates
`openstack::OpenStack`); per the spec's roster and display list its
identifier is `OpenStack` ("openstack"). -/
def openstack_IDENTIFIER : ProviderId := ProviderId.OpenStack

/-- Modelled from the spec: the `vultr` provider module is not among the
given source files (src/lib.rs line 151 instantiates `vultr::Vultr`); per
the spec's roster and display list its identifier is `Vultr` ("vultr"). -/
def vultr_IDENTIFIER : ProviderId := ProviderId.Vultr

/-- The static roster `PROVIDERS` (src/lib.rs lines 115–154), at the
identifier level, with every build feature enabled: one entry per
compiled-in provider, in source order. -/
def PROVIDERS : List ProviderId :=
  [akamai_IDENTIFIER, alibaba_IDENTIFIER, aws_IDENTIFIER, azure_IDENTIFIER,
   digitalocean_IDENTIFIER, gcp_IDENTIFIER, oci_IDENTIFIER,
   openstack_IDENTIFIER, vultr_IDENTIFIER]

/-- `supported_providers()` (src/lib.rs lines 171–178): the display string
of every roster entry, in roster order. -/
def supported_providers : List String :=
  PROVIDERS.map ProviderId.display

/-! ## The race state of `detect()`

`detect()` (src/lib.rs lines 187–230) builds a capacity-1 mpsc channel,
spawns one task per roster entry, and races the channel against a
one-shot completion signal raised by the last task to decrement an atomic
countdown.  The embedding renders one invocation as a labelled transition
system.  A probe's externally determined outcome — whether its vendor-file
or metadata check confirms — is abstracted as the environment `confirms`.
-/

/-- The control point of one spawned task (src/lib.rs lines 205–212):
`running` while `provider.identify(tx)` is executing, `sending` while a
confirmed probe awaits `tx.send(IDENTIFIER)`, `decrementing` once
`identify` has returned (by any path) and the `fetch_sub` is still due,
`done` after the decrement. -/
inductive TaskPhase where
  | running
  | sending
  | decrementing
  | done
deriving DecidableEq, Repr

/-- The per-invocation race state (spec §3 "Race state"): the channel
buffer (capacity 1), the atomic countdown `counter`, the `Notify` permit
`notified`, the phase of each spawned task, and `result` — `some p` once
the `tokio::select!` has resolved and `detect()` has returned `p`. -/
structure DState where
  tasks : List TaskPhase
  chan : List ProviderId
  counter : Nat
  notified : Bool
  result : Option ProviderId
deriving DecidableEq, Repr

/-- The state right after src/lib.rs lines 188–213: one `running` task
per roster entry, an empty channel, `counter` initialized to the roster
size (line 195), no notification, no result. -/
def initState (ids : List ProviderId) : DState :=
  { tasks := List.replicate ids.length TaskPhase.running
    chan := []
    counter := ids.length
    notified := false
    result := none }

/-- The recv-arm handler `res.unwrap_or_default()` (src/lib.rs line 221):
a received value is returned as is; a `None` from a closed channel falls
back to `ProviderId::Unknown`, the default.  No case panics or
propagates an error. -/
def recvHandler (res : Option ProviderId) : ProviderId :=
  res.getD ProviderId.defaultValue

/-- One scheduler event of a `detect()` invocation.  `decr i isLast`
carries whether the `fetch_sub` observed the countdown at 1 (src/lib.rs
line 209); the step function forces the flag to agree with the state. -/
inductive Label where
  | finish (i : Nat)
  | confirm (i : Nat)
  | sendOk (i : Nat)
  | sendClosed (i : Nat)
  | decr (i : Nat) (isLast : Bool)
  | recvValue
  | completionFire
deriving DecidableEq, Repr

/-- The transition function of one `detect()` invocation over roster
`ids` with probe outcomes `confirms`.  `none` means the event cannot
fire in `s`.

* `finish i`: task `i`'s `identify` returns without confirming
  (src/providers/＊.rs: the `if`'s condition is false, nothing is sent).
* `confirm i`: task `i`'s checks confirm; it proceeds to
  `tx.send(IDENTIFIER).await` (alibaba.rs line 31 and its analogues).
* `sendOk i`: the send completes: it needs buffer capacity (the channel
  has capacity 1, src/lib.rs line 188) and a live receiver — `rx` lives
  exactly until `detect` returns, i.e. while `result = none`.
* `sendClosed i`: the receiver is gone (`detect` returned); the send
  fails and the error is swallowed (alibaba.rs lines 33–35).
* `decr i isLast`: after `identify` returns, the task runs
  `counter.fetch_sub(1)` and, exactly when the old value was 1, calls
  `complete.notify_one()` (src/lib.rs lines 209–211).
* `recvValue`: the `biased` select's first arm: `rx.recv()` is ready
  because the buffer is nonempty; `detect` returns the received value
  through `recvHandler` (src/lib.rs lines 219–222).  `rx.recv()` can
  never yield `None` while the select runs, because `detect`'s own `tx`
  (cloned to the tasks, src/lib.rs line 201, but itself dropped only at
  return) keeps the channel open; the `None` fallback is `recvHandler`.
* `completionFire`: the select's second arm: the buffer is empty (the
  first arm is polled first, `biased`, src/lib.rs line 216) and the
  completion permit is set; `detect` returns `ProviderId::Unknown`
  (src/lib.rs lines 225–228). -/
def step (ids : List ProviderId) (confirms : Nat → Bool) :
    Label → DState → Option DState
  | Label.finish i, s =>
    if s.tasks[i]? = some TaskPhase.running ∧ confirms i = false then
      some { s with tasks := s.tasks.set i TaskPhase.decrementing }
    else none
  | Label.confirm i, s =>
    if s.tasks[i]? = some TaskPhase.running ∧ confirms i = true then
      some { s with tasks := s.tasks.set i TaskPhase.sending }
    else none
  | Label.sendOk i, s =>
    match s.tasks[i]?, ids[i]? with
    | some TaskPhase.sending, some v =>
      if s.result = none ∧ s.chan.length < 1 then
        some { s with chan := s.chan ++ [v]
                      tasks := s.tasks.set i TaskPhase.decrementing }
      else none
    | _, _ => none
  | Label.sendClosed i, s =>
    if s.tasks[i]? = some TaskPhase.sending ∧ s.result ≠ none then
      some { s with tasks := s.tasks.set i TaskPhase.decrementing }
    else none
  | Label.decr i isLast, s =>
    if s.tasks[i]? = some TaskPhase.decrementing ∧ isLast = (s.counter == 1) then
      some { s with tasks := s.tasks.set i TaskPhase.done
                    counter := s.counter - 1
                    notified := s.notified || isLast }
    else none
  | Label.recvValue, s =>
    match s.result, s.chan with
    | none, v :: rest =>
      some { s with result := some (recvHandler (some v)), chan := rest }
    | _, _ => none
  | Label.completionFire, s =>
    if s.result = none ∧ s.chan = [] ∧ s.notified = true then
      some { s with result := some ProviderId.Unknown }
    else none

/-- Run a schedule of events from a state. -/
def run (ids : List ProviderId) (confirms : Nat → Bool) :
    List Label → DState → Option DState
  | [], s => some s
  | l :: ls, s =>
    match step ids confirms l s with
    | some t => run ids confirms ls t
    | none => none

/-- A state one `detect()` invocation can be in under some interleaving. -/
def Reach (ids : List ProviderId) (confirms : Nat → Bool) (s : DState) : Prop :=
  ∃ ls, run ids confirms ls (initState ids) = some s

/-- How many spawned tasks have performed their decrement. -/
def doneCount (s : DState) : Nat :=
  s.tasks.countP fun ph => decide (ph = TaskPhase.done)

/-- The state invariant of one `detect()` invocation: the task list has
one entry per roster member; the countdown plus the number of completed
decrements is the roster size (so the `usize` `fetch_sub` never wraps);
the `Notify` permit is set exactly when the countdown has hit zero
(which takes at least one task); the capacity-1 buffer holds at most one
value, every buffered value is a roster identifier, and any returned
value is `Unknown` or a roster identifier. -/
def Inv (ids : List ProviderId) (s : DState) : Prop :=
  s.tasks.length = ids.length ∧
  s.counter + doneCount s = ids.length ∧
  (s.notified = true ↔ s.counter = 0 ∧ 1 ≤ ids.length) ∧
  s.chan.length ≤ 1 ∧
  (∀ v ∈ s.chan, v ∈ ids) ∧
  (∀ p, s.result = some p → p = ProviderId.Unknown ∨ p ∈ ids)

/-- Auxiliary invariant of a run in which no probe confirms: no task ever
reaches the `sending` phase, the channel stays empty, and a returned
value can only be `Unknown`, returned after every task has finished. -/
def NoConfirmInv (s : DState) : Prop :=
  (∀ ph ∈ s.tasks, ph ≠ TaskPhase.sending) ∧
  s.chan = [] ∧
  (∀ p, s.result = some p →
    p = ProviderId.Unknown ∧ ∀ ph ∈ s.tasks, ph = TaskPhase.done)

/-- A complete schedule for tasks `k, k+1, …, k+n-1` when none confirms:
each task finishes its `identify` and performs its decrement, in index
order; the decrement flag records that only the last one sees the
countdown at 1. -/
def noConfirmSched : Nat → Nat → List Label
  | _, 0 => []
  | k, n + 1 =>
    Label.finish k :: Label.decr k (decide (n = 0)) :: noConfirmSched (k + 1) n

/-- How often a schedule decrements on behalf of task `i`. -/
def countDecr (i : Nat) (ls : List Label) : Nat :=
  ls.countP fun l =>
    match l with
    | Label.decr j _ => decide (j = i)
    | _ => false

/-- How often a schedule raises the completion signal (a decrement that
observed the countdown at 1 and so ran `complete.notify_one()`). -/
def countNotify (ls : List Label) : Nat :=
  ls.countP fun l =>
    match l with
    | Label.decr _ isLast => isLast
    | _ => false

/-- `detect_with_timeout` (src/lib.rs lines 181–183):
`tokio::time::timeout(duration, detect()).await.ok()`.  The race against
the deadline is abstracted as its outcome: `Except.ok p` when `detect()`
resolved to `p` within the duration, `Except.error ()` when the deadline
elapsed first (`Elapsed` carries no data).  `.ok()` maps the former to
`Some` and the latter to `None`; no path panics. -/
def detect_with_timeout (raceResult : Except Unit ProviderId) : Option ProviderId :=
  raceResult.toOption

/-! ## The probe contract (src/providers/alibaba.rs, azure.rs)

Each probe's I/O is abstracted into an environment recording the outcome
of every fallible operation the code performs; the probe's control flow
is translated from the source. -/

/-- Rust `str::contains`: substring test. -/
def strContains (haystack needle : String) : Bool :=
  decide (List.IsInfix needle.toList haystack.toList)

/-- Outcome of the vendor-file access: whether `Path::is_file()` holds,
and what `fs::read_to_string` returns if attempted. -/
structure FileEnv where
  isFile : Bool
  readResult : Except Unit String

/-- `check_vendor_file` (alibaba.rs lines 72–90, azure.rs lines 83–101,
and the analogous bodies of the other providers): `false` unless the path
is a file, the read succeeds and the content holds the provider's marker
substring; a read error is logged and folded into `false`. -/
def check_vendor_file (marker : String) (env : FileEnv) : Bool :=
  if env.isFile then
    match env.readResult with
    | Except.ok content => strContains content marker
    | Except.error _ => false
  else false

/-- Outcome of a text-body metadata request (alibaba.rs): whether
`reqwest::Client::builder().build()` succeeded, and the outcome of
`send()` and then `text()` if reached. -/
structure HttpTextEnv where
  clientBuilt : Bool
  send : Except Unit (Except Unit String)

/-- `Alibaba::check_metadata_server` (alibaba.rs lines 42–69): `true`
exactly when the client builds, the request and body read succeed and
the body contains `"ECS Virt"`; every error path is logged and folded
into `false`. -/
def alibaba_check_metadata_server (env : HttpTextEnv) : Bool :=
  if env.clientBuilt then
    match env.send with
    | Except.ok (Except.ok text) => strContains text "ECS Virt"
    | Except.ok (Except.error _) => false
    | Except.error _ => false
  else false

/-- The `compute` object of Azure's metadata response (azure.rs lines
17–26). -/
structure AzureCompute where
  vm_id : String

/-- Azure's parsed metadata response (azure.rs lines 23–26). -/
structure AzureMetadataResponse where
  compute : AzureCompute

/-- Outcome of Azure's metadata request: whether the client builds, and
the outcome of `send()` and then `json::<MetadataResponse>()`. -/
structure AzureHttpEnv where
  clientBuilt : Bool
  send : Except Unit (Except Unit AzureMetadataResponse)

/-- `Azure::check_metadata_server` (azure.rs lines 54–80): `true`
exactly when the client builds, the request and JSON parse succeed and
`compute.vm_id` is nonempty; every error path is folded into `false`. -/
def azure_check_metadata_server (env : AzureHttpEnv) : Bool :=
  if env.clientBuilt then
    match env.send with
    | Except.ok (Except.ok resp) => !resp.compute.vm_id.isEmpty
    | Except.ok (Except.error _) => false
    | Except.error _ => false
  else false

/-- What one `identify` call did: the identifiers it sent (attempted) on
the report channel, in order, and whether it returned normally (`identify`
returns `()`; an escaped error would be a panic). -/
structure IdentifyOutcome where
  sent : List ProviderId
  returnedNormally : Bool

/-- `Alibaba::identify` (alibaba.rs lines 25–37): send `IDENTIFIER` iff
the vendor-file check or the metadata check confirms; a send error
(receiver gone) is only logged — both match arms mirror the
`if let Err(err) = res` that swallows it. -/
def alibaba_identify (fe : FileEnv) (he : HttpTextEnv)
    (sendResult : Except Unit Unit) : IdentifyOutcome :=
  if check_vendor_file "Alibaba Cloud ECS" fe || alibaba_check_metadata_server he then
    match sendResult with
    | Except.ok _ => { sent := [alibaba_IDENTIFIER], returnedNormally := true }
    | Except.error _ => { sent := [alibaba_IDENTIFIER], returnedNormally := true }
  else { sent := [], returnedNormally := true }

/-- `Azure::identify` (azure.rs lines 37–49): same shape with Azure's
checks and identifier. -/
def azure_identify (fe : FileEnv) (he : AzureHttpEnv)
    (sendResult : Except Unit Unit) : IdentifyOutcome :=
  if check_vendor_file "Microsoft Corporation" fe || azure_check_metadata_server he then
    match sendResult with
    | Except.ok _ => { sent := [azure_IDENTIFIER], returnedNormally := true }
    | Except.error _ => { sent := [azure_IDENTIFIER], returnedNormally := true }
  else { sent := [], returnedNormally := true }

/-! ## Generic list bookkeeping for the invariant proofs -/

theorem countP_set_add {α : Type} (p : α → Bool) :
    ∀ (l : List α) (i : Nat) (a b : α), l[i]? = some a →
      (l.set i b).countP p + (if p a then 1 else 0) =
        l.countP p + (if p b then 1 else 0) := by
  intro l
  induction l with
  | nil => intro i a b h; simp at h
  | cons x xs ih =>
    intro i a b h
    cases i with
    | zero =>
      simp only [List.getElem?_cons_zero, Option.some.injEq] at h
      subst h
      simp only [List.set_cons_zero, List.countP_cons]
      omega
    | succ j =>
      simp only [List.getElem?_cons_succ] at h
      simp only [List.set_cons_succ, List.countP_cons]
      have := ih j a b h
      omega

theorem mem_of_getElem?_some {α : Type} {l : List α} {i : Nat} {a : α}
    (h : l[i]? = some a) : a ∈ l :=
  List.mem_iff_getElem?.mpr ⟨i, h⟩

theorem inv_init (ids : List ProviderId) : Inv ids (initState ids) := by
  simp only [Inv, initState, doneCount]
  have hz : (List.replicate ids.length TaskPhase.running).countP
      (fun ph => decide (ph = TaskPhase.done)) = 0 := by
    apply List.countP_eq_zero.mpr
    intro ph hph
    have := List.eq_of_mem_replicate hph
    subst this
    decide
  refine ⟨List.length_replicate _ _, by omega, ?_, by simp, by simp, by simp⟩
  constructor
  · intro hfalse; simp at hfalse
  · rintro ⟨h0, h1⟩
    exfalso
    omega

/-- If some task is at a phase other than `done`, the done-count falls
short of the task-list length. -/
theorem doneCount_lt_of_not_done {s : DState} {i : Nat} {ph : TaskPhase}
    (h : s.tasks[i]? = some ph) (hph : ph ≠ TaskPhase.done) :
    doneCount s < s.tasks.length := by
  rcases Nat.lt_or_ge (doneCount s) s.tasks.length with hlt | hge
  · exact hlt
  · exfalso
    have hle : s.tasks.countP (fun x => decide (x = TaskPhase.done)) ≤ s.tasks.length :=
      List.countP_le_length _
    have heq : s.tasks.countP (fun x => decide (x = TaskPhase.done)) = s.tasks.length := by
      unfold doneCount at hge; omega
    have hall := List.countP_eq_length.mp heq
    have : decide (ph = TaskPhase.done) = true := hall ph (mem_of_getElem?_some h)
    exact hph (by simpa using this)

/-- Every transition of `step` preserves the invariant. -/
theorem inv_step {ids : List ProviderId} {confirms : Nat → Bool}
    {l : Label} {s t : DState}
    (hInv : Inv ids s) (h : step ids confirms l s = some t) : Inv ids t := by
  obtain ⟨hlen, hcount, hnot, hcap, hchan, hres⟩ := hInv
  cases l with
  | finish i =>
    simp only [step] at h
    split at h
    · rename_i hg
      obtain ⟨hph, -⟩ := hg
      cases h
      have hct := countP_set_add (fun x => decide (x = TaskPhase.done)) s.tasks i
        TaskPhase.running TaskPhase.decrementing hph
      simp at hct
      simp only [Inv, doneCount] at *
      refine ⟨by rw [List.length_set]; exact hlen, by omega, hnot, hcap, hchan, hres⟩
    · exact absurd h (by simp)
  | confirm i =>
    simp only [step] at h
    split at h
    · rename_i hg
      obtain ⟨hph, -⟩ := hg
      cases h
      have hct := countP_set_add (fun x => decide (x = TaskPhase.done)) s.tasks i
        TaskPhase.running TaskPhase.sending hph
      simp at hct
      simp only [Inv, doneCount] at *
      refine ⟨by rw [List.length_set]; exact hlen, by omega, hnot, hcap, hchan, hres⟩
    · exact absurd h (by simp)
  | sendOk i =>
    simp only [step] at h
    split at h
    · rename_i v hph hv
      split at h
      · rename_i hg
        obtain ⟨hres0, hlen1⟩ := hg
        cases h
        have hct := countP_set_add (fun x => decide (x = TaskPhase.done)) s.tasks i
          TaskPhase.sending TaskPhase.decrementing hph
        simp at hct
        simp only [Inv, doneCount] at *
        refine ⟨by rw [List.length_set]; exact hlen, by omega, hnot, ?_, ?_, hres⟩
        · simp only [List.length_append, List.length_cons, List.length_nil]
          omega
        · intro w hw
          simp only [List.mem_append, List.mem_cons, List.not_mem_nil, or_false] at hw
          rcases hw with hw | hw
          · exact hchan w hw
          · subst hw
            exact mem_of_getElem?_some hv
      · exact absurd h (by simp)
    · exact absurd h (by simp)
  | sendClosed i =>
    simp only [step] at h
    split at h
    · rename_i hg
      obtain ⟨hph, -⟩ := hg
      cases h
      have hct := countP_set_add (fun x => decide (x = TaskPhase.done)) s.tasks i
        TaskPhase.sending TaskPhase.decrementing hph
      simp at hct
      simp only [Inv, doneCount] at *
      refine ⟨by rw [List.length_set]; exact hlen, by omega, hnot, hcap, hchan, hres⟩
    · exact absurd h (by simp)
  | decr i isLast =>
    simp only [step] at h
    split at h
    · rename_i hg
      obtain ⟨hph, hb⟩ := hg
      cases h
      have hct := countP_set_add (fun x => decide (x = TaskPhase.done)) s.tasks i
        TaskPhase.decrementing TaskPhase.done hph
      simp at hct
      have hlt : doneCount s < s.tasks.length :=
        doneCount_lt_of_not_done hph (by decide)
      have hN1 : 1 ≤ ids.length := by
        rw [hlen] at hlt
        omega
      have hge1 : 1 ≤ s.counter := by
        rw [hlen] at hlt
        omega
      subst hb
      simp only [Inv, doneCount] at *
      refine ⟨by rw [List.length_set]; exact hlen, by omega, ?_, hcap, hchan, hres⟩
      constructor
      · intro hor
        rcases Bool.or_eq_true_iff.mp hor with hn | hl
        · obtain ⟨h0, -⟩ := hnot.mp hn
          exact ⟨by omega, hN1⟩
        · have h1 : s.counter = 1 := by simpa using hl
          exact ⟨by omega, hN1⟩
      · rintro ⟨h0, -⟩
        have h1 : s.counter = 1 := by omega
        simp [h1]
    · exact absurd h (by simp)
  | recvValue =>
    simp only [step] at h
    split at h
    · rename_i v rest hres0 hch
      cases h
      have hv : v ∈ ids := hchan v (by rw [hch]; exact List.mem_cons_self _ _)
      simp only [Inv, doneCount] at *
      refine ⟨hlen, hcount, hnot, ?_, ?_, ?_⟩
      · rw [hch] at hcap
        simp only [List.length_cons] at hcap
        omega
      · intro w hw
        exact hchan w (by rw [hch]; exact List.mem_cons_of_mem _ hw)
      · intro p hp
        simp only [recvHandler, Option.getD_some, Option.some.injEq] at hp
        subst hp
        right
        exact hv
    · exact absurd h (by simp)
  | completionFire =>
    simp only [step] at h
    split at h
    · rename_i hg
      cases h
      simp only [Inv, doneCount] at *
      refine ⟨hlen, hcount, hnot, hcap, hchan, ?_⟩
      intro p hp
      simp only [Option.some.injEq] at hp
      subst hp
      left
      rfl
    · exact absurd h (by simp)

/-- The invariant holds along any schedule. -/
theorem inv_run {ids : List ProviderId} {confirms : Nat → Bool} :
    ∀ {ls : List Label} {s t : DState},
      Inv ids s → run ids confirms ls s = some t → Inv ids t := by
  intro ls
  induction ls with
  | nil =>
    intro s t hInv h
    simp only [run, Option.some.injEq] at h
    exact h ▸ hInv
  | cons l ls ih =>
    intro s t hInv h
    simp only [run] at h
    split at h
    · rename_i u hu
      exact ih (inv_step hInv hu) h
    · cases h

/-- The invariant holds in every reachable state. -/
theorem inv_reach {ids : List ProviderId} {confirms : Nat → Bool} {s : DState}
    (h : Reach ids confirms s) : Inv ids s := by
  obtain ⟨ls, hls⟩ := h
  exact inv_run (inv_init ids) hls

/-- No roster entry is the `Unknown` sentinel. -/
theorem unknown_not_in_PROVIDERS : ProviderId.Unknown ∉ PROVIDERS := by
  decide

/-- C8: `supported_providers()` returns, in roster order, one entry per
compiled-in provider, each entry that provider's canonical lowercase
display string, with no duplicates; the roster's identifiers are
themselves distinct. -/
theorem claim_C8_supported_providers :
    supported_providers =
      ["akamai", "alibaba", "aws", "azure", "digitalocean", "gcp", "oci",
       "openstack", "vultr"] ∧
    supported_providers = PROVIDERS.map ProviderId.display ∧
    supported_providers.length = PROVIDERS.length ∧
    supported_providers.Nodup ∧
    PROVIDERS.Nodup := by
  refine ⟨rfl, rfl, rfl, ?_, ?_⟩ <;> decide

/-- Running a concatenated schedule is running its parts in order. -/
theorem run_append {ids : List ProviderId} {confirms : Nat → Bool} :
    ∀ (ls₁ ls₂ : List Label) (s : DState),
      run ids confirms (ls₁ ++ ls₂) s =
        (run ids confirms ls₁ s).bind (run ids confirms ls₂) := by
  intro ls₁
  induction ls₁ with
  | nil => intro ls₂ s; simp [run]
  | cons l ls ih =>
    intro ls₂ s
    cases hstep : step ids confirms l s with
    | none => simp [run, hstep]
    | some t => simp [run, hstep, ih]

/-! ## The empty roster: `detect()` cannot resolve

With zero providers nothing is spawned, so no task ever decrements the
countdown and `complete.notify_one()` is never called; and `rx.recv()`
stays pending forever because `detect`'s own `tx` keeps the channel open
and nothing is ever sent.  Neither select arm can become ready: the
initial state has no transition at all. -/

theorem step_empty_none (confirms : Nat → Bool) (l : Label) :
    step [] confirms l (initState []) = none := by
  cases l <;> simp [step, initState]

theorem reach_empty_eq_init {confirms : Nat → Bool} {s : DState}
    (h : Reach [] confirms s) : s = initState [] := by
  obtain ⟨ls, hls⟩ := h
  cases ls with
  | nil =>
    simp only [run, Option.some.injEq] at hls
    exact hls.symm
  | cons l ls =>
    simp only [run, step_empty_none] at hls
    cases hls

/-- C1: the failing edge case.  For the empty roster, every reachable
state of `detect()` is the initial one: the call never returns (so in
particular it does not return `Unknown`), and the completion signal never
fires — `notify_one` runs only inside a spawned task, of which there are
none, while `rx.recv()` is kept pending by `detect`'s own live sender.
The spec's "empty roster resolves to `Unknown` immediately" does not hold
of the code. -/
theorem claim_C1_empty_roster_never_resolves (confirms : Nat → Bool)
    (s : DState) (hreach : Reach [] confirms s) :
    s = initState [] ∧ s.result = none ∧ s.notified = false := by
  have h := reach_empty_eq_init hreach
  subst h
  exact ⟨rfl, rfl, rfl⟩

/-- Witness for C1's theorem at the initial state of the empty roster. -/
theorem claim_C1_witness :
    initState [] = initState [] ∧ (initState []).result = none ∧
      (initState []).notified = false :=
  claim_C1_empty_roster_never_resolves (fun _ => false) (initState [])
    ⟨[], rfl⟩

/-- C2, counterexample at the concrete input the claim includes (roster
of size 0, no probe sends): no reachable state of the empty-roster
`detect()` has returned `Unknown` — the call never returns at all, so
"for every roster of size N ≥ 0 … detect() returns Unknown" fails at
N = 0. -/
theorem claim_C2_counterexample_empty_roster :
    ¬ ∃ s, Reach [] (fun _ => false) s ∧ s.result = some ProviderId.Unknown := by
  rintro ⟨s, hreach, hres⟩
  have h := reach_empty_eq_init hreach
  subst h
  simp [initState] at hres
/-- When the completion permit is set, every task has finished. -/
theorem all_done_of_notified {ids : List ProviderId} {s : DState}
    (hInv : Inv ids s) (hn : s.notified = true) :
    ∀ ph ∈ s.tasks, ph = TaskPhase.done := by
  obtain ⟨hlen, hcount, hnot, -, -, -⟩ := hInv
  obtain ⟨h0, hN⟩ := hnot.mp hn
  have hfull : s.tasks.countP (fun x => decide (x = TaskPhase.done)) =
      s.tasks.length := by
    unfold doneCount at hcount
    omega
  intro ph hph
  have := List.countP_eq_length.mp hfull ph hph
  simpa using this

/-- `NoConfirmInv` holds initially. -/
theorem nc_init (ids : List ProviderId) : NoConfirmInv (initState ids) := by
  refine ⟨?_, rfl, ?_⟩
  · intro ph hph
    have := List.eq_of_mem_replicate hph
    subst this
    simp
  · intro p hp
    simp [initState] at hp

/-- `NoConfirmInv` is preserved when no probe confirms. -/
theorem nc_step {ids : List ProviderId} {confirms : Nat → Bool}
    {l : Label} {s t : DState} (hc : ∀ i, confirms i = false)
    (hInv : Inv ids s) (hNC : NoConfirmInv s)
    (h : step ids confirms l s = some t) : NoConfirmInv t := by
  obtain ⟨hnsend, hchan, hres⟩ := hNC
  cases l with
  | finish i =>
    simp only [step] at h
    split at h
    · rename_i hg
      obtain ⟨hph, -⟩ := hg
      cases h
      refine ⟨?_, hchan, ?_⟩
      · intro ph hmem
        rcases List.mem_or_eq_of_mem_set hmem with hm | he
        · exact hnsend ph hm
        · subst he; simp
      · intro p hp
        obtain ⟨-, hall⟩ := hres p hp
        have := hall TaskPhase.running (mem_of_getElem?_some hph)
        simp at this
    · exact absurd h (by simp)
  | confirm i =>
    simp only [step] at h
    split at h
    · rename_i hg
      obtain ⟨-, hconf⟩ := hg
      rw [hc i] at hconf
      cases hconf
    · exact absurd h (by simp)
  | sendOk i =>
    simp only [step] at h
    split at h
    · rename_i v hph hv
      exact absurd rfl (hnsend TaskPhase.sending (mem_of_getElem?_some hph))
    · exact absurd h (by simp)
  | sendClosed i =>
    simp only [step] at h
    split at h
    · rename_i hg
      obtain ⟨hph, -⟩ := hg
      exact absurd rfl (hnsend TaskPhase.sending (mem_of_getElem?_some hph))
    · exact absurd h (by simp)
  | decr i isLast =>
    simp only [step] at h
    split at h
    · rename_i hg
      obtain ⟨hph, -⟩ := hg
      cases h
      refine ⟨?_, hchan, ?_⟩
      · intro ph hmem
        rcases List.mem_or_eq_of_mem_set hmem with hm | he
        · exact hnsend ph hm
        · subst he; simp
      · intro p hp
        obtain ⟨-, hall⟩ := hres p hp
        have := hall TaskPhase.decrementing (mem_of_getElem?_some hph)
        simp at this
    · exact absurd h (by simp)
  | recvValue =>
    simp only [step] at h
    split at h
    · rename_i v rest hres0 hch
      rw [hchan] at hch
      cases hch
    · exact absurd h (by simp)
  | completionFire =>
    simp only [step] at h
    split at h
    · rename_i hg
      obtain ⟨-, -, hn⟩ := hg
      cases h
      have hall := all_done_of_notified hInv hn
      refine ⟨?_, hchan, ?_⟩
      · intro ph hmem
        rw [hall ph hmem]
        simp
      · intro p hp
        simp only [Option.some.injEq] at hp
        exact ⟨hp.symm, hall⟩
    · exact absurd h (by simp)

/-- `NoConfirmInv` holds along any schedule when no probe confirms. -/
theorem nc_run {ids : List ProviderId} {confirms : Nat → Bool}
    (hc : ∀ i, confirms i = false) :
    ∀ {ls : List Label} {s t : DState},
      Inv ids s → NoConfirmInv s → run ids confirms ls s = some t →
      NoConfirmInv t := by
  intro ls
  induction ls with
  | nil =>
    intro s t hInv hNC h
    simp only [run, Option.some.injEq] at h
    exact h ▸ hNC
  | cons l ls ih =>
    intro s t hInv hNC h
    simp only [run] at h
    split at h
    · rename_i u hu
      exact ih (inv_step hInv hu) (nc_step hc hInv hNC hu) h
    · cases h

/-- `NoConfirmInv` holds in every reachable state when no probe confirms. -/
theorem nc_reach {ids : List ProviderId} {confirms : Nat → Bool}
    (hc : ∀ i, confirms i = false) {s : DState}
    (h : Reach ids confirms s) : NoConfirmInv s := by
  obtain ⟨ls, hls⟩ := h
  exact nc_run hc (inv_init ids) (nc_init ids) hls
theorem decide_zero_eq_beq_succ (n : Nat) : decide (n = 0) = ((n + 1) == 1) := by
  cases n <;> rfl

/-- Running `noConfirmSched k n` from a state whose tasks `k … k+n-1` are
all still `running` finishes and decrements them all, ending with the
countdown at zero and the completion permit raised; tasks below `k` are
untouched. -/
theorem run_noConfirmSched {ids : List ProviderId} {confirms : Nat → Bool}
    (hc : ∀ i, confirms i = false) :
    ∀ (n k : Nat) (s : DState),
      1 ≤ n →
      s.tasks.length = k + n →
      (∀ j, k ≤ j → j < k + n → s.tasks[j]? = some TaskPhase.running) →
      s.counter = n →
      s.notified = false →
      ∃ tasks' : List TaskPhase,
        run ids confirms (noConfirmSched k n) s =
          some { s with tasks := tasks', counter := 0, notified := true } ∧
        tasks'.length = k + n ∧
        (∀ j, j < k → tasks'[j]? = s.tasks[j]?) ∧
        (∀ j, k ≤ j → j < k + n → tasks'[j]? = some TaskPhase.done) := by
  intro n
  induction n with
  | zero =>
    intro k s h1
    exact absurd h1 (by omega)
  | succ m ih =>
    intro k s h1 hlen hrun hcnt hnot
    have hkrun : s.tasks[k]? = some TaskPhase.running :=
      hrun k (Nat.le_refl k) (by omega)
    have hk_lt : k < s.tasks.length := by
      by_contra hge
      push_neg at hge
      rw [List.getElem?_eq_none hge] at hkrun
      cases hkrun
    have hstep1 : step ids confirms (Label.finish k) s =
        some { s with tasks := s.tasks.set k TaskPhase.decrementing } := by
      simp [step, hkrun, hc k]
    have hself : (s.tasks.set k TaskPhase.decrementing)[k]? =
        some TaskPhase.decrementing :=
      List.getElem?_set_self hk_lt
    have hflag : decide (m = 0) = (s.counter == 1) := by
      rw [hcnt]
      exact decide_zero_eq_beq_succ m
    have hstep2 : step ids confirms (Label.decr k (decide (m = 0)))
        { s with tasks := s.tasks.set k TaskPhase.decrementing } =
        some { s with
               tasks := (s.tasks.set k TaskPhase.decrementing).set k TaskPhase.done
               counter := s.counter - 1
               notified := s.notified || decide (m = 0) } := by
      simp [step, hself, hflag]
    rcases Nat.eq_zero_or_pos m with hm0 | hm
    · subst hm0
      have hsched : noConfirmSched k 1 = [Label.finish k, Label.decr k true] := by
        simp [noConfirmSched]
      have hbeq : ((s.counter == 1) : Bool) = true := by
        rw [hcnt]
        decide
      have hstep2a : step ids confirms (Label.decr k true)
          { s with tasks := s.tasks.set k TaskPhase.decrementing } =
          some { s with
                 tasks := (s.tasks.set k TaskPhase.decrementing).set k TaskPhase.done
                 counter := s.counter - 1
                 notified := s.notified || true } := by
        simp [step, hself, hbeq]
      refine ⟨(s.tasks.set k TaskPhase.decrementing).set k TaskPhase.done,
        ?_, ?_, ?_, ?_⟩
      · rw [hsched]
        simp only [run, hstep1, hstep2a]
        rw [hcnt, hnot]
        rfl
      · rw [List.length_set, List.length_set]
        exact hlen
      · intro j hj
        rw [List.getElem?_set_ne (by omega), List.getElem?_set_ne (by omega)]
      · intro j hkj hj
        have hjk : j = k := by omega
        subst hjk
        exact List.getElem?_set_self (by rw [List.length_set]; exact hk_lt)
    · have hmne : decide (m = 0) = false := decide_eq_false (by omega)
      set X : List TaskPhase :=
        (s.tasks.set k TaskPhase.decrementing).set k TaskPhase.done with hX
      have hXlen : X.length = k + (m + 1) := by
        rw [hX, List.length_set, List.length_set]
        exact hlen
      obtain ⟨tasks', hrunIH, hlen', hpre, hdone⟩ :=
        ih (k + 1) { s with tasks := X, counter := m, notified := false }
          hm (by simpa using hXlen.trans (by omega))
          (fun j hkj hj => by
            show X[j]? = some TaskPhase.running
            rw [hX, List.getElem?_set_ne (by omega), List.getElem?_set_ne (by omega)]
            exact hrun j (by omega) (by omega))
          rfl rfl
      refine ⟨tasks', ?_, by omega, ?_, ?_⟩
      · simp only [noConfirmSched, run, hstep1, hstep2]
        rw [hcnt, hnot, hmne]
        simpa using hrunIH
      · intro j hj
        have h1 := hpre j (by omega)
        have h2 : X[j]? = s.tasks[j]? := by
          rw [hX, List.getElem?_set_ne (by omega), List.getElem?_set_ne (by omega)]
        exact h1.trans h2
      · intro j hkj hj
        rcases Nat.eq_or_lt_of_le hkj with hjk | hjk
        · rw [← hjk]
          have h1 := hpre k (by omega)
          have h2 : X[k]? = some TaskPhase.done := by
            rw [hX]
            exact List.getElem?_set_self (by rw [List.length_set]; exact hk_lt)
          exact h1.trans h2
        · exact hdone j (by omega) (by omega)

/-- When no probe confirms and the roster is nonempty, some complete
interleaving ends with `detect()` returning `Unknown` and every task
finished. -/
theorem detect_terminates_no_confirm {ids : List ProviderId}
    {confirms : Nat → Bool} (hc : ∀ i, confirms i = false)
    (hN : 1 ≤ ids.length) :
    ∃ final, Reach ids confirms final ∧
      final.result = some ProviderId.Unknown ∧
      ∀ ph ∈ final.tasks, ph = TaskPhase.done := by
  obtain ⟨tasks', hrun, hlen', hpre, hdone⟩ :=
    run_noConfirmSched hc ids.length 0 (initState ids) hN
      (by simp [initState])
      (fun j h0 hj => by
        simp only [initState, List.getElem?_replicate]
        rw [if_pos (by omega)])
      rfl rfl
  set s₁ : DState :=
    { initState ids with tasks := tasks', counter := 0, notified := true }
    with hs₁
  have hfire : step ids confirms Label.completionFire s₁ =
      some { s₁ with result := some ProviderId.Unknown } := by
    simp [step, hs₁, initState]
  refine ⟨{ s₁ with result := some ProviderId.Unknown },
    ⟨noConfirmSched 0 ids.length ++ [Label.completionFire], ?_⟩, rfl, ?_⟩
  · rw [run_append, hrun]
    simp only [Option.some_bind, run, hfire]
  · intro ph hph
    obtain ⟨j, hj⟩ := List.mem_iff_getElem?.mp hph
    have hjlt : j < tasks'.length := by
      rcases (List.getElem?_eq_some.mp hj) with ⟨hlt, -⟩
      exact hlt
    have hd := hdone j (Nat.zero_le j) (by omega)
    rw [hj] at hd
    simpa using hd

/-- C2 (amended to rosters of size N ≥ 1; at N = 0 the call never
returns, see the counterexample): when no probe sends, any value
`detect()` returns is `Unknown`, returned only once every probe task has
finished, and some complete interleaving does return it. -/
theorem claim_C2_no_confirm_unknown_after_all (ids : List ProviderId)
    (confirms : Nat → Bool) (hc : ∀ i, confirms i = false)
    (hN : 1 ≤ ids.length) :
    (∀ s, Reach ids confirms s → ∀ p, s.result = some p →
       p = ProviderId.Unknown ∧ ∀ ph ∈ s.tasks, ph = TaskPhase.done) ∧
    (∃ final, Reach ids confirms final ∧
       final.result = some ProviderId.Unknown ∧
       ∀ ph ∈ final.tasks, ph = TaskPhase.done) := by
  constructor
  · intro s hreach p hp
    exact (nc_reach hc hreach).2.2 p hp
  · exact detect_terminates_no_confirm hc hN

/-- Witness for C2's amended theorem on the one-probe roster with a
never-confirming probe. -/
theorem claim_C2_witness :
    (∀ s, Reach [ProviderId.Alibaba] (fun _ => false) s →
       ∀ p, s.result = some p →
       p = ProviderId.Unknown ∧ ∀ ph ∈ s.tasks, ph = TaskPhase.done) ∧
    (∃ final, Reach [ProviderId.Alibaba] (fun _ => false) final ∧
       final.result = some ProviderId.Unknown ∧
       ∀ ph ∈ final.tasks, ph = TaskPhase.done) :=
  claim_C2_no_confirm_unknown_after_all [ProviderId.Alibaba] (fun _ => false)
    (fun _ => rfl) (by decide)

/-- C3: the `biased` select gives the delivery channel strict priority
over the completion signal: from any reachable state in which both a
probe's positive report (a value in the buffer) and the completion
permit are ready at once, any step that resolves `detect()` returns the
reported identity — never `Unknown` (given that, as for the real roster,
no probe identifier is `Unknown`). -/
theorem claim_C3_biased_priority (ids : List ProviderId)
    (confirms : Nat → Bool) (hids : ∀ v ∈ ids, v ≠ ProviderId.Unknown)
    (s : DState) (hreach : Reach ids confirms s)
    (v : ProviderId) (rest : List ProviderId)
    (hchan : s.chan = v :: rest) (hnotif : s.notified = true)
    (hres : s.result = none) :
    v ≠ ProviderId.Unknown ∧
    ∀ l t, step ids confirms l s = some t →
      t.result = none ∨ t.result = some v := by
  have hInv := inv_reach hreach
  obtain ⟨-, -, -, -, hchanInv, -⟩ := hInv
  have hvmem : v ∈ ids := hchanInv v (by rw [hchan]; exact List.mem_cons_self _ _)
  refine ⟨hids v hvmem, ?_⟩
  intro l t h
  cases l with
  | finish i =>
    simp only [step] at h
    split at h
    · cases h; exact Or.inl hres
    · exact absurd h (by simp)
  | confirm i =>
    simp only [step] at h
    split at h
    · cases h; exact Or.inl hres
    · exact absurd h (by simp)
  | sendOk i =>
    simp only [step] at h
    split at h
    · split at h
      · rename_i hg
        obtain ⟨-, hlt⟩ := hg
        rw [hchan] at hlt
        simp at hlt
      · exact absurd h (by simp)
    · exact absurd h (by simp)
  | sendClosed i =>
    simp only [step] at h
    split at h
    · cases h; exact Or.inl hres
    · exact absurd h (by simp)
  | decr i isLast =>
    simp only [step] at h
    split at h
    · cases h; exact Or.inl hres
    · exact absurd h (by simp)
  | recvValue =>
    simp only [step] at h
    split at h
    · rename_i v' rest' hres0 hch
      cases h
      rw [hchan] at hch
      injection hch with hv hrest
      right
      simp only [recvHandler, Option.getD_some]
      rw [hv]
    · exact absurd h (by simp)
  | completionFire =>
    simp only [step] at h
    split at h
    · rename_i hg
      obtain ⟨-, hch, -⟩ := hg
      rw [hchan] at hch
      cases hch
    · exact absurd h (by simp)

/-- Witness for C3's theorem: the one-probe roster, the state after the
probe has confirmed, sent and made its final decrement — both select
arms ready at once. -/
theorem claim_C3_witness :
    ProviderId.Alibaba ≠ ProviderId.Unknown ∧
    ∀ l t, step [ProviderId.Alibaba] (fun _ => true) l
        { tasks := [TaskPhase.done], chan := [ProviderId.Alibaba],
          counter := 0, notified := true, result := none } = some t →
      t.result = none ∨ t.result = some ProviderId.Alibaba :=
  claim_C3_biased_priority [ProviderId.Alibaba] (fun _ => true) (by decide)
    { tasks := [TaskPhase.done], chan := [ProviderId.Alibaba],
      counter := 0, notified := true, result := none }
    ⟨[Label.confirm 0, Label.sendOk 0, Label.decr 0 true], by decide⟩
    ProviderId.Alibaba [] rfl rfl rfl

/-- C4: `detect_with_timeout` is `timeout(duration, detect()).await.ok()`:
when `detect()` resolves to `p` within the deadline the call returns
`some p`; it returns `none` exactly when the deadline elapses first; the
`none` outcome is distinct from `some Unknown`; both branches are total
(no panic). -/
theorem claim_C4_detect_with_timeout (ids : List ProviderId)
    (confirms : Nat → Bool) (s : DState) (hreach : Reach ids confirms s)
    (p : ProviderId) (hres : s.result = some p) :
    detect_with_timeout (Except.ok p) = some p ∧
    (∀ r : Except Unit ProviderId,
       detect_with_timeout r = none ↔ r = Except.error ()) ∧
    detect_with_timeout (Except.error ()) ≠ some ProviderId.Unknown := by
  refine ⟨rfl, ?_, by simp [detect_with_timeout, Except.toOption]⟩
  intro r
  cases r with
  | ok a => simp [detect_with_timeout, Except.toOption]
  | error e =>
    cases e
    simp [detect_with_timeout, Except.toOption]

/-- Witness for C4's theorem: a run of the one-probe roster in which
`detect()` resolves to `Alibaba`. -/
theorem claim_C4_witness :
    detect_with_timeout (Except.ok ProviderId.Alibaba) =
      some ProviderId.Alibaba ∧
    (∀ r : Except Unit ProviderId,
       detect_with_timeout r = none ↔ r = Except.error ()) ∧
    detect_with_timeout (Except.error ()) ≠ some ProviderId.Unknown :=
  claim_C4_detect_with_timeout [ProviderId.Alibaba] (fun _ => true)
    { tasks := [TaskPhase.decrementing], chan := [], counter := 1,
      notified := false, result := some ProviderId.Alibaba }
    ⟨[Label.confirm 0, Label.sendOk 0, Label.recvValue], by decide⟩
    ProviderId.Alibaba rfl

/-- C7: when the delivery channel is closed without ever yielding a
value, `rx.recv()` yields `None` and the recv arm's
`unwrap_or_default()` makes `detect()` fall back to `Unknown`, the
`#[default]` variant — no panic, no propagated error. -/
theorem claim_C7_recv_closed_unknown :
    recvHandler none = ProviderId.Unknown ∧
    ProviderId.defaultValue = ProviderId.Unknown :=
  ⟨rfl, rfl⟩

/-- C9: every value `detect()` returns over the compiled-in roster is
`Unknown` or a roster probe's own identifier: each buffered value was
sent by a roster probe as exactly its own identifier, and no roster
identifier is `Unknown`, so a non-`Unknown` result always names a
compiled-in provider. -/
theorem claim_C9_result_in_roster (confirms : Nat → Bool) (s : DState)
    (hreach : Reach PROVIDERS confirms s) :
    (∀ p, s.result = some p →
       p = ProviderId.Unknown ∨ (p ∈ PROVIDERS ∧ p ≠ ProviderId.Unknown)) ∧
    (∀ v ∈ s.chan, v ∈ PROVIDERS ∧ v ≠ ProviderId.Unknown) := by
  obtain ⟨-, -, -, -, hchan, hres⟩ := inv_reach hreach
  have hne : ∀ v ∈ PROVIDERS, v ≠ ProviderId.Unknown := by decide
  constructor
  · intro p hp
    rcases hres p hp with h | h
    · exact Or.inl h
    · exact Or.inr ⟨h, hne p h⟩
  · intro v hv
    exact ⟨hchan v hv, hne v (hchan v hv)⟩

/-- Witness for C9's theorem: the full roster's first probe confirms,
sends and wins the race; `detect()` returns `Akamai`. -/
theorem claim_C9_witness :
    (∀ p, (DState.mk
        [TaskPhase.decrementing, TaskPhase.running, TaskPhase.running,
         TaskPhase.running, TaskPhase.running, TaskPhase.running,
         TaskPhase.running, TaskPhase.running, TaskPhase.running]
        [] 9 false (some ProviderId.Akamai)).result = some p →
       p = ProviderId.Unknown ∨ (p ∈ PROVIDERS ∧ p ≠ ProviderId.Unknown)) ∧
    (∀ v ∈ (DState.mk
        [TaskPhase.decrementing, TaskPhase.running, TaskPhase.running,
         TaskPhase.running, TaskPhase.running, TaskPhase.running,
         TaskPhase.running, TaskPhase.running, TaskPhase.running]
        [] 9 false (some ProviderId.Akamai)).chan,
       v ∈ PROVIDERS ∧ v ≠ ProviderId.Unknown) :=
  claim_C9_result_in_roster (fun _ => true)
    (DState.mk
      [TaskPhase.decrementing, TaskPhase.running, TaskPhase.running,
       TaskPhase.running, TaskPhase.running, TaskPhase.running,
       TaskPhase.running, TaskPhase.running, TaskPhase.running]
      [] 9 false (some ProviderId.Akamai))
    ⟨[Label.confirm 0, Label.sendOk 0, Label.recvValue], by decide⟩

theorem lt_of_getElem?_some {α : Type} {l : List α} {i : Nat} {a : α}
    (h : l[i]? = some a) : i < l.length :=
  (List.getElem?_eq_some.mp h).1

/-- Once the countdown has hit zero, no later decrement can observe it
at 1, so a schedule from such a state never notifies. -/
theorem countNotify_zero {ids : List ProviderId} {confirms : Nat → Bool} :
    ∀ (ls : List Label) (s final : DState),
      run ids confirms ls s = some final → s.counter = 0 →
      countNotify ls = 0 := by
  intro ls
  induction ls with
  | nil => intro s final h h0; rfl
  | cons l ls ih =>
    intro s final h h0
    simp only [run] at h
    split at h
    · rename_i t ht
      cases l with
      | decr i b =>
        simp only [step] at ht
        split at ht
        · rename_i hg
          obtain ⟨-, hb⟩ := hg
          rw [h0] at hb
          have hbf : b = false := by simpa using hb
          subst hbf
          cases ht
          have htail := ih _ final h (by simp [h0])
          simp only [countNotify, List.countP_cons] at htail ⊢
          simp [htail]
        · exact absurd ht (by simp)
      | finish i =>
        simp only [step] at ht
        split at ht
        · cases ht
          have htail := ih _ final h h0
          simp only [countNotify, List.countP_cons] at htail ⊢
          simp [htail]
        · exact absurd ht (by simp)
      | confirm i =>
        simp only [step] at ht
        split at ht
        · cases ht
          have htail := ih _ final h h0
          simp only [countNotify, List.countP_cons] at htail ⊢
          simp [htail]
        · exact absurd ht (by simp)
      | sendOk i =>
        simp only [step] at ht
        split at ht
        · split at ht
          · cases ht
            have htail := ih _ final h h0
            simp only [countNotify, List.countP_cons] at htail ⊢
            simp [htail]
          · exact absurd ht (by simp)
        · exact absurd ht (by simp)
      | sendClosed i =>
        simp only [step] at ht
        split at ht
        · cases ht
          have htail := ih _ final h h0
          simp only [countNotify, List.countP_cons] at htail ⊢
          simp [htail]
        · exact absurd ht (by simp)
      | recvValue =>
        simp only [step] at ht
        split at ht
        · cases ht
          have htail := ih _ final h h0
          simp only [countNotify, List.countP_cons] at htail ⊢
          simp [htail]
        · exact absurd ht (by simp)
      | completionFire =>
        simp only [step] at ht
        split at ht
        · cases ht
          have htail := ih _ final h h0
          simp only [countNotify, List.countP_cons] at htail ⊢
          simp [htail]
        · exact absurd ht (by simp)
    · cases h

/-- Along any schedule of a `detect()` invocation the completion signal
is raised at most once: the decrement that observes the countdown at 1
leaves it at 0, after which `countNotify_zero` applies. -/
theorem countNotify_le_one {ids : List ProviderId} {confirms : Nat → Bool} :
    ∀ (ls : List Label) (s final : DState),
      run ids confirms ls s = some final → countNotify ls ≤ 1 := by
  intro ls
  induction ls with
  | nil => intro s final h; simp [countNotify]
  | cons l ls ih =>
    intro s final h
    simp only [run] at h
    split at h
    · rename_i t ht
      cases l with
      | decr i b =>
        simp only [step] at ht
        split at ht
        · rename_i hg
          obtain ⟨-, hb⟩ := hg
          cases ht
          cases b with
          | false =>
            have htail := ih _ final h
            simp only [countNotify, List.countP_cons] at htail ⊢
            simpa using htail
          | true =>
            have h1 : s.counter = 1 := by simpa using hb.symm
            have htail : countNotify ls = 0 :=
              countNotify_zero ls _ final h (by simp [h1])
            simp only [countNotify, List.countP_cons] at htail ⊢
            simp [htail]
        · exact absurd ht (by simp)
      | finish i =>
        have htail := ih _ final h
        simp only [countNotify, List.countP_cons] at htail ⊢
        simpa using htail
      | confirm i =>
        have htail := ih _ final h
        simp only [countNotify, List.countP_cons] at htail ⊢
        simpa using htail
      | sendOk i =>
        have htail := ih _ final h
        simp only [countNotify, List.countP_cons] at htail ⊢
        simpa using htail
      | sendClosed i =>
        have htail := ih _ final h
        simp only [countNotify, List.countP_cons] at htail ⊢
        simpa using htail
      | recvValue =>
        have htail := ih _ final h
        simp only [countNotify, List.countP_cons] at htail ⊢
        simpa using htail
      | completionFire =>
        have htail := ih _ final h
        simp only [countNotify, List.countP_cons] at htail ⊢
        simpa using htail
    · cases h

/-- A task that has already decremented (phase `done`) never decrements
again: no schedule step concerns it and its phase is stable. -/
theorem countDecr_done {ids : List ProviderId} {confirms : Nat → Bool}
    (i : Nat) :
    ∀ (ls : List Label) (s final : DState),
      run ids confirms ls s = some final →
      s.tasks[i]? = some TaskPhase.done →
      countDecr i ls = 0 ∧ final.tasks[i]? = some TaskPhase.done := by
  intro ls
  induction ls with
  | nil =>
    intro s final h hd
    simp only [run, Option.some.injEq] at h
    subst h
    exact ⟨rfl, hd⟩
  | cons l ls ih =>
    intro s final h hd
    simp only [run] at h
    split at h
    · rename_i t ht
      cases l with
      | finish j =>
        simp only [step] at ht
        split at ht
        · rename_i hg
          obtain ⟨hph, -⟩ := hg
          cases ht
          have hji : j ≠ i := by
            intro hji
            subst hji
            rw [hd] at hph
            simp at hph
          have hdt : (s.tasks.set j TaskPhase.decrementing)[i]? =
              some TaskPhase.done := by
            rw [List.getElem?_set_ne hji]
            exact hd
          obtain ⟨hc, hf⟩ := ih _ final h hdt
          refine ⟨?_, hf⟩
          simp only [countDecr, List.countP_cons] at hc ⊢
          simp [hc]
        · exact absurd ht (by simp)
      | confirm j =>
        simp only [step] at ht
        split at ht
        · rename_i hg
          obtain ⟨hph, -⟩ := hg
          cases ht
          have hji : j ≠ i := by
            intro hji
            subst hji
            rw [hd] at hph
            simp at hph
          have hdt : (s.tasks.set j TaskPhase.sending)[i]? =
              some TaskPhase.done := by
            rw [List.getElem?_set_ne hji]
            exact hd
          obtain ⟨hc, hf⟩ := ih _ final h hdt
          refine ⟨?_, hf⟩
          simp only [countDecr, List.countP_cons] at hc ⊢
          simp [hc]
        · exact absurd ht (by simp)
      | sendOk j =>
        simp only [step] at ht
        split at ht
        · rename_i v hph hv
          split at ht
          · cases ht
            have hji : j ≠ i := by
              intro hji
              subst hji
              rw [hd] at hph
              simp at hph
            have hdt : (s.tasks.set j TaskPhase.decrementing)[i]? =
                some TaskPhase.done := by
              rw [List.getElem?_set_ne hji]
              exact hd
            obtain ⟨hc, hf⟩ := ih _ final h hdt
            refine ⟨?_, hf⟩
            simp only [countDecr, List.countP_cons] at hc ⊢
            simp [hc]
          · exact absurd ht (by simp)
        · exact absurd ht (by simp)
      | sendClosed j =>
        simp only [step] at ht
        split at ht
        · rename_i hg
          obtain ⟨hph, -⟩ := hg
          cases ht
          have hji : j ≠ i := by
            intro hji
            subst hji
            rw [hd] at hph
            simp at hph
          have hdt : (s.tasks.set j TaskPhase.decrementing)[i]? =
              some TaskPhase.done := by
            rw [List.getElem?_set_ne hji]
            exact hd
          obtain ⟨hc, hf⟩ := ih _ final h hdt
          refine ⟨?_, hf⟩
          simp only [countDecr, List.countP_cons] at hc ⊢
          simp [hc]
        · exact absurd ht (by simp)
      | decr j b =>
        simp only [step] at ht
        split at ht
        · rename_i hg
          obtain ⟨hph, -⟩ := hg
          cases ht
          have hji : j ≠ i := by
            intro hji
            subst hji
            rw [hd] at hph
            simp at hph
          have hdt : (s.tasks.set j TaskPhase.done)[i]? =
              some TaskPhase.done := by
            rw [List.getElem?_set_ne hji]
            exact hd
          obtain ⟨hc, hf⟩ := ih _ final h hdt
          refine ⟨?_, hf⟩
          simp only [countDecr, List.countP_cons] at hc ⊢
          simp [hc, hji]
        · exact absurd ht (by simp)
      | recvValue =>
        simp only [step] at ht
        split at ht
        · cases ht
          obtain ⟨hc, hf⟩ := ih _ final h hd
          refine ⟨?_, hf⟩
          simp only [countDecr, List.countP_cons] at hc ⊢
          simp [hc]
        · exact absurd ht (by simp)
      | completionFire =>
        simp only [step] at ht
        split at ht
        · cases ht
          obtain ⟨hc, hf⟩ := ih _ final h hd
          refine ⟨?_, hf⟩
          simp only [countDecr, List.countP_cons] at hc ⊢
          simp [hc]
        · exact absurd ht (by simp)
    · cases h

/-- A task not yet done decrements exactly once along any schedule that
completes it, and zero times along one that does not: the count equals
the done-indicator of its final phase. -/
theorem countDecr_pending {ids : List ProviderId} {confirms : Nat → Bool}
    (i : Nat) :
    ∀ (ls : List Label) (s final : DState),
      run ids confirms ls s = some final →
      ∀ ph, s.tasks[i]? = some ph → ph ≠ TaskPhase.done →
      countDecr i ls =
        if final.tasks[i]? = some TaskPhase.done then 1 else 0 := by
  intro ls
  induction ls with
  | nil =>
    intro s final h ph hph hnd
    simp only [run, Option.some.injEq] at h
    subst h
    rw [if_neg]
    · rfl
    · rw [hph]
      simp only [Option.some.injEq]
      exact hnd
  | cons l ls ih =>
    intro s final h ph hph hnd
    simp only [run] at h
    split at h
    · rename_i t ht
      cases l with
      | finish j =>
        simp only [step] at ht
        split at ht
        · rename_i hg
          obtain ⟨hphj, -⟩ := hg
          cases ht
          by_cases hji : j = i
          · subst hji
            have hset : (s.tasks.set j TaskPhase.decrementing)[j]? =
                some TaskPhase.decrementing :=
              List.getElem?_set_self (lt_of_getElem?_some hphj)
            have htail := ih _ final h TaskPhase.decrementing hset (by simp)
            simp only [countDecr, List.countP_cons] at htail ⊢
            simp [htail]
          · have hset : (s.tasks.set j TaskPhase.decrementing)[i]? = some ph := by
              rw [List.getElem?_set_ne hji]
              exact hph
            have htail := ih _ final h ph hset hnd
            simp only [countDecr, List.countP_cons] at htail ⊢
            simp [htail]
        · exact absurd ht (by simp)
      | confirm j =>
        simp only [step] at ht
        split at ht
        · rename_i hg
          obtain ⟨hphj, -⟩ := hg
          cases ht
          by_cases hji : j = i
          · subst hji
            have hset : (s.tasks.set j TaskPhase.sending)[j]? =
                some TaskPhase.sending :=
              List.getElem?_set_self (lt_of_getElem?_some hphj)
            have htail := ih _ final h TaskPhase.sending hset (by simp)
            simp only [countDecr, List.countP_cons] at htail ⊢
            simp [htail]
          · have hset : (s.tasks.set j TaskPhase.sending)[i]? = some ph := by
              rw [List.getElem?_set_ne hji]
              exact hph
            have htail := ih _ final h ph hset hnd
            simp only [countDecr, List.countP_cons] at htail ⊢
            simp [htail]
        · exact absurd ht (by simp)
      | sendOk j =>
        simp only [step] at ht
        split at ht
        · rename_i v hphj hv
          split at ht
          · cases ht
            by_cases hji : j = i
            · subst hji
              have hset : (s.tasks.set j TaskPhase.decrementing)[j]? =
                  some TaskPhase.decrementing :=
                List.getElem?_set_self (lt_of_getElem?_some hphj)
              have htail := ih _ final h TaskPhase.decrementing hset (by simp)
              simp only [countDecr, List.countP_cons] at htail ⊢
              simp [htail]
            · have hset : (s.tasks.set j TaskPhase.decrementing)[i]? = some ph := by
                rw [List.getElem?_set_ne hji]
                exact hph
              have htail := ih _ final h ph hset hnd
              simp only [countDecr, List.countP_cons] at htail ⊢
              simp [htail]
          · exact absurd ht (by simp)
        · exact absurd ht (by simp)
      | sendClosed j =>
        simp only [step] at ht
        split at ht
        · rename_i hg
          obtain ⟨hphj, -⟩ := hg
          cases ht
          by_cases hji : j = i
          · subst hji
            have hset : (s.tasks.set j TaskPhase.decrementing)[j]? =
                some TaskPhase.decrementing :=
              List.getElem?_set_self (lt_of_getElem?_some hphj)
            have htail := ih _ final h TaskPhase.decrementing hset (by simp)
            simp only [countDecr, List.countP_cons] at htail ⊢
            simp [htail]
          · have hset : (s.tasks.set j TaskPhase.decrementing)[i]? = some ph := by
              rw [List.getElem?_set_ne hji]
              exact hph
            have htail := ih _ final h ph hset hnd
            simp only [countDecr, List.countP_cons] at htail ⊢
            simp [htail]
        · exact absurd ht (by simp)
      | decr j b =>
        simp only [step] at ht
        split at ht
        · rename_i hg
          obtain ⟨hphj, -⟩ := hg
          cases ht
          by_cases hji : j = i
          · subst hji
            have hset : (s.tasks.set j TaskPhase.done)[j]? =
                some TaskPhase.done :=
              List.getElem?_set_self (lt_of_getElem?_some hphj)
            obtain ⟨hc0, hfdone⟩ := countDecr_done j ls _ final h hset
            simp only [countDecr, List.countP_cons] at hc0 ⊢
            rw [if_pos hfdone]
            simp [hc0]
          · have hset : (s.tasks.set j TaskPhase.done)[i]? = some ph := by
              rw [List.getElem?_set_ne hji]
              exact hph
            have htail := ih _ final h ph hset hnd
            simp only [countDecr, List.countP_cons] at htail ⊢
            simp [htail, hji]
        · exact absurd ht (by simp)
      | recvValue =>
        simp only [step] at ht
        split at ht
        · cases ht
          have htail := ih _ final h ph hph hnd
          simp only [countDecr, List.countP_cons] at htail ⊢
          simp [htail]
        · exact absurd ht (by simp)
      | completionFire =>
        simp only [step] at ht
        split at ht
        · cases ht
          have htail := ih _ final h ph hph hnd
          simp only [countDecr, List.countP_cons] at htail ⊢
          simp [htail]
        · exact absurd ht (by simp)
    · cases h

/-- The decrement that observes the countdown at 1 (and so notifies)
belongs to the last probe to finish: immediately afterwards the permit
is set and every task is done. -/
theorem decr_last_all_done {ids : List ProviderId} {confirms : Nat → Bool}
    {i : Nat} {s t : DState} (hreach : Reach ids confirms s)
    (h : step ids confirms (Label.decr i true) s = some t) :
    t.notified = true ∧ ∀ ph ∈ t.tasks, ph = TaskPhase.done := by
  have hInv := inv_reach hreach
  have hInv' := inv_step hInv h
  simp only [step] at h
  split at h
  · cases h
    constructor
    · simp
    · exact all_done_of_notified hInv' (by simp)
  · exact absurd h (by simp)

/-- C5: in every `detect()` invocation, each spawned task decrements the
shared countdown exactly once — its decrement count along any schedule
is 1 exactly when it has finished — the completion signal is raised at
most once over the whole run, and the decrement that raises it (the one
observing the countdown transition to zero) is the last probe to finish:
immediately afterwards every task is done.  No other task raises the
signal: a raising decrement is one with `isLast = true`, and at most one
such occurs. -/
theorem claim_C5_decrement_once_last_notifies (ids : List ProviderId)
    (confirms : Nat → Bool) :
    (∀ ls final, run ids confirms ls (initState ids) = some final →
       (∀ i, i < ids.length →
          countDecr i ls =
            if final.tasks[i]? = some TaskPhase.done then 1 else 0) ∧
       countNotify ls ≤ 1) ∧
    (∀ i s t, Reach ids confirms s →
       step ids confirms (Label.decr i true) s = some t →
       t.notified = true ∧ ∀ ph ∈ t.tasks, ph = TaskPhase.done) := by
  constructor
  · intro ls final hrun
    constructor
    · intro i hi
      have hinit : (initState ids).tasks[i]? = some TaskPhase.running := by
        simp only [initState, List.getElem?_replicate]
        rw [if_pos hi]
      exact countDecr_pending i ls _ final hrun TaskPhase.running hinit (by simp)
    · exact countNotify_le_one ls _ final hrun
  · intro i s t hreach hstep
    exact decr_last_all_done hreach hstep

/-- C10: the atomic countdown never underflows: it starts at the roster
size, in every reachable state the counter plus the completed decrements
equals the roster size, any enabled `fetch_sub` sees the counter at 1 or
more (so the unsigned subtraction cannot wrap), and along any schedule
the completion notification is issued at most once. -/
theorem claim_C10_countdown_safe (ids : List ProviderId)
    (confirms : Nat → Bool) :
    (initState ids).counter = ids.length ∧
    (∀ s, Reach ids confirms s →
       s.counter + doneCount s = ids.length ∧
       (∀ i b t, step ids confirms (Label.decr i b) s = some t →
          1 ≤ s.counter)) ∧
    (∀ ls final, run ids confirms ls (initState ids) = some final →
       countNotify ls ≤ 1) := by
  refine ⟨rfl, ?_, ?_⟩
  · intro s hreach
    obtain ⟨hlen, hcount, -, -, -, -⟩ := inv_reach hreach
    refine ⟨hcount, ?_⟩
    intro i b t hstep
    simp only [step] at hstep
    split at hstep
    · rename_i hg
      have hlt := doneCount_lt_of_not_done hg.1 (by decide)
      rw [hlen] at hlt
      omega
    · exact absurd hstep (by simp)
  · intro ls final hrun
    exact countNotify_le_one ls _ final hrun

/-- C6: the probe contract, checked on the Alibaba and Azure probes:
`identify` sends exactly its own identifier if and only if the
vendor-file check or the metadata check confirms; on any failure (file
absent, read error, client build failure, request error, malformed
response) it sends nothing; it always returns normally, and a send
failure because the receiver has gone away changes nothing — the error
is swallowed. -/
theorem claim_C6_probe_contract :
    ∀ (fe : FileEnv) (he : HttpTextEnv) (ze : AzureHttpEnv)
      (sr : Except Unit Unit),
      ((alibaba_identify fe he sr).sent =
         if check_vendor_file "Alibaba Cloud ECS" fe ||
            alibaba_check_metadata_server he
         then [alibaba_IDENTIFIER] else []) ∧
      (alibaba_identify fe he sr).returnedNormally = true ∧
      (alibaba_identify fe he sr).sent =
        (alibaba_identify fe he (Except.ok ())).sent ∧
      ProviderId.Unknown ∉ (alibaba_identify fe he sr).sent ∧
      (fe.isFile = false → check_vendor_file "Alibaba Cloud ECS" fe = false) ∧
      (∀ e, fe.readResult = Except.error e →
         check_vendor_file "Alibaba Cloud ECS" fe = false) ∧
      (∀ e, he.send = Except.error e →
         alibaba_check_metadata_server he = false) ∧
      ((azure_identify fe ze sr).sent =
         if check_vendor_file "Microsoft Corporation" fe ||
            azure_check_metadata_server ze
         then [azure_IDENTIFIER] else []) ∧
      (azure_identify fe ze sr).returnedNormally = true ∧
      ProviderId.Unknown ∉ (azure_identify fe ze sr).sent ∧
      (∀ e, ze.send = Except.error e →
         azure_check_metadata_server ze = false) := by
  intro fe he ze sr
  refine ⟨?_, ?_, ?_, ?_, ?_, ?_, ?_, ?_, ?_, ?_, ?_⟩
  · by_cases hcond : (check_vendor_file "Alibaba Cloud ECS" fe ||
        alibaba_check_metadata_server he) = true
    · rw [if_pos hcond]
      cases sr <;> simp [alibaba_identify, hcond]
    · rw [if_neg hcond]
      simp only [Bool.not_eq_true] at hcond
      cases sr <;> simp [alibaba_identify, hcond]
  · cases sr <;>
      by_cases hcond : (check_vendor_file "Alibaba Cloud ECS" fe ||
        alibaba_check_metadata_server he) = true <;>
      simp [alibaba_identify, hcond] <;>
      simp only [Bool.not_eq_true] at hcond <;>
      simp [alibaba_identify, hcond]
  · cases sr <;>
      by_cases hcond : (check_vendor_file "Alibaba Cloud ECS" fe ||
        alibaba_check_metadata_server he) = true <;>
      simp [alibaba_identify, hcond] <;>
      simp only [Bool.not_eq_true] at hcond <;>
      simp [alibaba_identify, hcond]
  · cases sr <;>
      by_cases hcond : (check_vendor_file "Alibaba Cloud ECS" fe ||
        alibaba_check_metadata_server he) = true <;>
      simp [alibaba_identify, hcond, alibaba_IDENTIFIER] <;>
      simp only [Bool.not_eq_true] at hcond <;>
      simp [alibaba_identify, hcond]
  · intro hfile
    simp [check_vendor_file, hfile]
  · intro e hread
    simp only [check_vendor_file, hread]
    cases hf : fe.isFile <;> simp
  · intro e hsend
    simp [alibaba_check_metadata_server, hsend]
  · by_cases hcond : (check_vendor_file "Microsoft Corporation" fe ||
        azure_check_metadata_server ze) = true
    · rw [if_pos hcond]
      cases sr <;> simp [azure_identify, hcond]
    · rw [if_neg hcond]
      simp only [Bool.not_eq_true] at hcond
      cases sr <;> simp [azure_identify, hcond]
  · cases sr <;>
      by_cases hcond : (check_vendor_file "Microsoft Corporation" fe ||
        azure_check_metadata_server ze) = true <;>
      simp [azure_identify, hcond] <;>
      simp only [Bool.not_eq_true] at hcond <;>
      simp [azure_identify, hcond]
  · cases sr <;>
      by_cases hcond : (check_vendor_file "Microsoft Corporation" fe ||
        azure_check_metadata_server ze) = true <;>
      simp [azure_identify, hcond, azure_IDENTIFIER] <;>
      simp only [Bool.not_eq_true] at hcond <;>
      simp [azure_identify, hcond]
  · intro e hsend
    simp [azure_check_metadata_server, hsend]

end CloudDetect
